/-
Verification of core retrieval and synthesis logic of the local-rag-notebook
repository.  Python functions are shallowly embedded as Lean definitions:
floating point numbers are modelled as rationals, Python lists as `List`,
Python dicts (which preserve insertion order) as association lists, and
fallible operations as `Except`.  Each definition's doc comment names the
source location it embeds.
-/
import Mathlib

set_option maxHeartbeats 1000000

/-! ## Shared list helpers -/

/-- First-occurrence deduplication of a list of strings: keeps the first copy
of every element, dropping later duplicates.  Used as the specification-side
description of Python dict-key insertion order and of `seen`-set filtering. -/
def dedupKeepFirst : List String → List String
  | [] => []
  | x :: xs => x :: (dedupKeepFirst xs).filter (fun y => y ≠ x)

/-- Stable descending sort by a rational key, modelling Python's
`list.sort(key=..., reverse=True)` (Timsort is stable; any stable sort with
the same key order is extensionally identical). -/
def sortDescBy {α : Type} (key : α → ℚ) (l : List α) : List α :=
  List.insertionSort (fun a b => key b ≤ key a) l

/-! ## Data model (`local_rag_notebook/index/schema.py`)

`Chunk` carries only the fields the verified operations read
(`chunk_id`, `text`); `Hit` is the full pydantic model with the float
score modelled as a rational. -/

structure Chunk where
  chunk_id : String
  text : String
deriving DecidableEq, Repr

structure Hit where
  chunk_id : String
  score : ℚ
deriving DecidableEq, Repr

/-! ## Synthesizer data model (`synthesizer.py`)

The parsed model response is a JSON dict; the embedded structure carries the
keys read by `validate_citations` and `decide_abstain`.  A citation entry is
read only through its `id` key. -/

structure Citation where
  id : Option String
deriving DecidableEq, Repr

structure ParsedResponse where
  answer_markdown : Option String
  citations : List Citation
  support_coverage : Option ℚ
  abstain : Bool
  why : Option String
deriving DecidableEq, Repr

/-- Two-decimal rendering of a rational, mirroring Python's `f"{x:.2f}"`
(round half to even).  It only feeds the human-readable reason strings. -/
def fmt2 (x : ℚ) : String :=
  let neg := x < 0
  let z : ℚ := |x| * 100
  let fl : ℤ := Int.floor z
  let frac : ℚ := z - fl
  let n : ℤ := if 1/2 < frac then fl + 1
    else if frac < 1/2 then fl
    else if fl % 2 = 0 then fl else fl + 1
  let m : ℕ := n.toNat
  (if neg ∧ m ≠ 0 then "-" else "") ++ toString (m / 100) ++ "." ++
    (if m % 100 < 10 then "0" ++ toString (m % 100) else toString (m % 100))

/-- Embedding of `decide_abstain` (synthesizer.py lines 227-234).
`parsed.get("support_coverage") or 0.0` yields 0 when the field is absent
(and is the identity on present rationals, since `or` only replaces falsy
values); `float(avg_sim or 0.0)` is likewise the identity on rationals. -/
def decide_abstain (parsed : ParsedResponse) (avg_sim : ℚ) (threshold : ℚ) :
    Bool × String :=
  let cov : ℚ := parsed.support_coverage.getD 0
  let blended : ℚ := 1/2 * cov + 1/2 * max 0 (min 1 avg_sim)
  if blended < threshold then
    (true, "insufficient support (blended=" ++ fmt2 blended ++
      " < threshold=" ++ fmt2 threshold ++ ")")
  else if parsed.abstain then (true, parsed.why.getD "model abstained")
  else (false, "")

/-- Specification-side blended support score:
`0.5 * support_coverage + 0.5 * clamp(avgSimilarity, 0, 1)`. -/
def blended_spec (cov avg : ℚ) : ℚ := 1/2 * cov + 1/2 * max 0 (min 1 avg)

/-! ## Python call binding (for the `query_text` answer stage)

`app.py` line 231 calls `extract_answer(question, chunks, max_chars=...,
join_with=..., include_headings=..., dehyphenate=...)`, while
`answer/extract.py` line 38 defines `def extract_answer(query, contexts)`
with no keyword-only parameters and no `**kwargs`.  Python call binding is
embedded below: positional arguments consume leading parameters and each
keyword argument must name one of the declared parameters. -/

/-- Parameter names of `extract_answer` as defined in
`local_rag_notebook/answer/extract.py` line 38. -/
def extract_answer_params : List String := ["query", "contexts"]

/-- Keyword-argument names used at the `extract_answer` call site inside
`query_text` (`local_rag_notebook/app.py` lines 231-238). -/
def query_text_answer_call_kwargs : List String :=
  ["max_chars", "join_with", "include_headings", "dehyphenate"]

/-- Python call binding for a function without `**kwargs`: a `TypeError` is
raised when more positional arguments are given than parameters exist, or
when a keyword argument does not name a declared parameter. -/
def bindPyCall (params : List String) (npos : ℕ) (kwargs : List String) :
    Except String Unit :=
  if params.length < npos then Except.error "too many positional arguments"
  else
    match kwargs.find? (fun kw => !(params.contains kw)) with
    | some kw =>
        Except.error ("unexpected keyword argument \x27" ++ kw ++ "\x27")
    | none => Except.ok ()

/-! ## Neighbor expansion (`local_rag_notebook/retrieve/fuse.py` lines 18-32) -/

/-- Embedding of `index_map = {cid: idx for idx, cid in enumerate(order_list)}`
followed by `.get(cid)`: a Python dict comprehension keeps the last index
written for a duplicated id, so this returns the index of the last
occurrence of `cid` in `order_list` (or `none`). -/
def lastIdx (order : List String) (cid : String) : Option ℕ :=
  match order with
  | [] => none
  | x :: xs =>
    match lastIdx xs cid with
    | some i => some (i + 1)
    | none => if x = cid then some 0 else none

/-- Embedding of the inner loop of `expand_neighbors`:
`for j in range(base - radius, base + radius + 1)` guarded by
`0 <= j < len(order_list)`, appending unseen ids.  The Python code keeps a
separate `seen` set whose contents always equal the contents of `out`, so
the accumulator list serves as both. -/
def sweepGo (order : List String) (js : List ℤ) (out : List String) :
    List String :=
  match js with
  | [] => out
  | j :: rest =>
    let out' :=
      if 0 ≤ j ∧ j < (order.length : ℤ) then
        let cand := order.getD j.toNat ""
        if cand ∈ out then out else out ++ [cand]
      else out
    sweepGo order rest out'

/-- Embedding of the outer loop of `expand_neighbors` over the input ids:
ids absent from the corpus order are skipped silently. -/
def expandGo (order : List String) (radius : ℕ) (ids : List String)
    (out : List String) : List String :=
  match ids with
  | [] => out
  | cid :: rest =>
    let out' :=
      match lastIdx order cid with
      | none => out
      | some base =>
        sweepGo order
          ((List.range (2 * radius + 1)).map
            (fun t : ℕ => (base : ℤ) - (radius : ℤ) + (t : ℤ)))
          out
    expandGo order radius rest out'

/-- Embedding of `expand_neighbors(ids, order_list, radius)`
(`retrieve/fuse.py` lines 18-32). -/
def expand_neighbors (ids : List String) (order_list : List String)
    (radius : ℕ) : List String :=
  expandGo order_list radius ids []

/-! ## Reciprocal-rank fusion (`local_rag_notebook/retrieve/fuse.py` lines 8-16)

The `scores` dict preserves insertion order, so it is embedded as an
association list of `Hit`s: an update keeps an existing entry in place, a
new key is appended at the end.  `merged` is the dict's items, then sorted
stably by descending score. -/

/-- Embedding of `scores[cid] = scores.get(cid, 0.0) + term` on an
insertion-ordered dict. -/
def updateScore (l : List Hit) (cid : String) (term : ℚ) : List Hit :=
  match l with
  | [] => [⟨cid, term⟩]
  | h :: t =>
    if h.chunk_id = cid then ⟨cid, h.score + term⟩ :: t
    else h :: updateScore t cid term

/-- Embedding of one `for rank, h in enumerate(hits, start=1)` accumulation
loop of `rrf_merge`: each hit contributes `1.0 / (k + rank)` to its id. -/
def accumRRF (k : ℕ) : ℕ → List Hit → List Hit → List Hit
  | _, [], sc => sc
  | rank, h :: t, sc =>
    accumRRF k (rank + 1) t
      (updateScore sc h.chunk_id (1 / ((k : ℚ) + (rank : ℚ))))

/-- Embedding of `rrf_merge(bm25_hits, dense_hits, k)`
(`retrieve/fuse.py` lines 8-16). -/
def rrf_merge (bm25_hits dense_hits : List Hit) (k : ℕ) : List Hit :=
  sortDescBy Hit.score (accumRRF k 1 dense_hits (accumRRF k 1 bm25_hits []))

/-- First-match score lookup in the embedded dict (0 when absent, matching
`scores.get(cid, 0.0)`). -/
def valOf (l : List Hit) (cid : String) : ℚ :=
  match l with
  | [] => 0
  | h :: t => if h.chunk_id = cid then h.score else valOf t cid

/-- Specification-side 1-based rank of an id in a hit list (rank of the
first occurrence; the top hit has rank 1). -/
def rankIn (hits : List Hit) (cid : String) : ℕ :=
  match hits with
  | [] => 1
  | h :: t => if h.chunk_id = cid then 1 else rankIn t cid + 1

/-- Specification-side RRF contribution of one hit list to an id:
`1/(k + rank)` when the id occurs, else 0. -/
def rrfContribution (k : ℕ) (hits : List Hit) (cid : String) : ℚ :=
  if cid ∈ hits.map Hit.chunk_id then 1 / ((k : ℚ) + (rankIn hits cid : ℚ))
  else 0

/-- Specification-side accumulated RRF score over both lists. -/
def rrfScoreSpec (A B : List Hit) (k : ℕ) (cid : String) : ℚ :=
  rrfContribution k A cid + rrfContribution k B cid

/-! ## Reranker (`local_rag_notebook/retrieve/rerank.py` lines 32-44)

`enabled` captures whether the sentence-transformers import succeeded; the
cross-encoder call `self._model.predict(pairs)` is modelled as an oracle
`predict` that either returns the score list or raises (`Except.error`).
The sentence-transformers contract returns one score per input pair; that
contract is a hypothesis of the theorems, not baked into the embedding. -/

/-- Embedding of `Reranker.rerank(query, chunks, top_k)`.  The returned
scores are `[float(s) for s in scores]`, i.e. the oracle's list in its
original (pre-sort) order, exactly as in the source. -/
def rerank (enabled : Bool)
    (predict : List (String × String) → Except Unit (List ℚ))
    (query : String) (chunks : List Chunk) (top_k : ℕ) :
    List Chunk × Option (List ℚ) :=
  if enabled = false ∨ chunks = [] then (chunks, none)
  else
    let pairs := (chunks.take top_k).map (fun c => (query, c.text))
    match predict pairs with
    | Except.error _ => (chunks, none)
    | Except.ok scores =>
      let scored := (chunks.take top_k).zip scores
      let sorted := sortDescBy (fun p => p.2) scored
      (sorted.map Prod.fst ++ chunks.drop top_k, some scores)

/-- A trivially well-formed scoring oracle (constant score 0), used to
instantiate the reranker theorems at concrete inputs. -/
def predConst : List (String × String) → Except Unit (List ℚ) :=
  fun ps => Except.ok (ps.map (fun _ => 0))

/-- Concrete two-candidate input exhibiting the score-alignment behaviour
of `rerank`: the oracle scores the first candidate 1 and the second 2. -/
def cexChunkA : Chunk := ⟨"A", "tA"⟩

def cexChunkB : Chunk := ⟨"B", "tB"⟩

def cexPredict : List (String × String) → Except Unit (List ℚ) :=
  fun _ => Except.ok [1, 2]

/-! ## Post-rerank selection in `query_text` (`app.py` lines 189-221)

The block below `rer_chunks, scores_obj = rr.rerank(...)` is embedded as a
function of the rerank outputs, the resolved cutoff `rr_min_score`, the
resolved `rr_final_k` and the pre-rerank `base_chunks`.  This `Reranker`
returns `Optional[List[float]]`, so the `isinstance(scores_obj, dict)`
branch is unreachable and `scores_obj` is modelled as an optional list
(an empty list is falsy in Python, hence skips the cutoff). -/

def select_after_rerank (rer_chunks : List Chunk) (scores_obj : Option (List ℚ))
    (min_score : ℚ) (final_k : ℕ) (base_chunks : List Chunk) : List Chunk :=
  let chunks0 :=
    if rer_chunks ≠ [] then
      let filtered :=
        match scores_obj with
        | some scores =>
          if scores ≠ [] then
            ((rer_chunks.zip scores).filter
              (fun p => decide (min_score ≤ p.2))).map Prod.fst
          else rer_chunks
        | none => rer_chunks
      if filtered ≠ [] then filtered.take final_k else rer_chunks.take final_k
    else base_chunks
  if chunks0 = [] then base_chunks.take final_k else chunks0

/-! ## Python string primitives used by `synthesizer.py`

These model CPython string behaviour on the ASCII range (the inputs the
claims exercise contain no other characters): `str.strip`, `str.lower`, the
regex `[A-Za-z0-9]+` tokenizer, and f-string pieces. -/

/-- ASCII Python whitespace, the character class of `str.strip()` and
regex `\s` on this corpus. -/
def isPySpace (c : Char) : Bool :=
  c = ' ' || c = '\t' || c = '\n' || c = '\r' || c = '\x0b' || c = '\x0c'

/-- Embedding of `str.strip()`. -/
def pyStrip (s : String) : String :=
  ⟨((s.data.dropWhile isPySpace).reverse.dropWhile isPySpace).reverse⟩

/-- Embedding of `str.lower()`. -/
def pyLower (s : String) : String := ⟨s.data.map Char.toLower⟩

/-- Embedding of a Python truthiness chain `a or b or ... or ""` over string
dict lookups: the first present, non-empty value (else the empty string). -/
def firstNonEmpty : List (Option String) → String
  | [] => ""
  | o :: rest =>
    match o with
    | some s => if s = "" then firstNonEmpty rest else s
    | none => firstNonEmpty rest

/-- Character class of the `_WORD_RE` regex `[A-Za-z0-9]+`. -/
def isWordChar (c : Char) : Bool := c.isAlpha || c.isDigit

/-- Maximal-run scanner implementing `_WORD_RE.findall`: splits a character
stream into its maximal `[A-Za-z0-9]+` runs. -/
def tokensAux : List Char → List Char → List String
  | [], cur => if cur.isEmpty then [] else [⟨cur.reverse⟩]
  | c :: rest, cur =>
    if isWordChar c then tokensAux rest (c :: cur)
    else if cur.isEmpty then tokensAux rest []
    else (⟨cur.reverse⟩ : String) :: tokensAux rest []

/-- Embedding of `_tokens(s)` (synthesizer.py lines 87-88): word tokens of
the lowercased string. -/
def pyTokens (s : String) : List String := tokensAux (pyLower s).data []

/-- Embedding of `_jaccard(a, b)` (synthesizer.py lines 91-98) on the token
sets: 1 when both are empty, 0 when exactly one is, else |A∩B| / |A∪B|
(with the code's `if union else 0` guard). -/
def jaccardQ (a b : List String) : ℚ :=
  let A := dedupKeepFirst a
  let B := dedupKeepFirst b
  if A.isEmpty ∧ B.isEmpty then 1
  else if A.isEmpty ∨ B.isEmpty then 0
  else
    let inter := (A.filter (fun x => decide (x ∈ B))).length
    let union := (A ++ B.filter (fun x => decide (x ∉ A))).length
    if union = 0 then 0 else (inter : ℚ) / (union : ℚ)

/-! ## Context packing (`synthesizer.py` lines 101-161)

An input chunk is a dict; the embedded structure carries the keys
`pack_context` reads.  Every accepted item is tracked together with the
source key that charged its quota (`pack_context` itself projects the
items; the keys exist only so that per-source properties are statable). -/

structure SynthChunk where
  text : Option String
  content : Option String
  title : Option String
  file_name : Option String
  path : Option String
  uri : Option String
  source : Option String
deriving DecidableEq, Repr

structure PackedItem where
  id : String
  title : String
  uri_or_path : String
  text : String
deriving DecidableEq, Repr

/-- Embedding of `(ch.get("text") or ch.get("content") or "").strip()`. -/
def chunkText (ch : SynthChunk) : String :=
  pyStrip (firstNonEmpty [ch.text, ch.content])

/-- Embedding of `_src_key(ch)` (synthesizer.py lines 125-126). -/
def srcKey (ch : SynthChunk) : String :=
  pyLower (firstNonEmpty [ch.path, ch.uri, ch.source, ch.title])

/-- Embedding of the packed item's `title` field with its
`f"Source {i}"` fallback. -/
def itemTitle (ch : SynthChunk) (i : ℕ) : String :=
  let t := firstNonEmpty [ch.title, ch.file_name, ch.source]
  if t = "" then "Source " ++ toString i else t

/-- Embedding of the packed item's `uri_or_path` field. -/
def itemPath (ch : SynthChunk) : String :=
  firstNonEmpty [ch.path, ch.uri, ch.source]

/-- Embedding of `kept_token_history[-compare_last_n:] if compare_last_n > 0
else kept_token_history`. -/
def histWindow (hist : List (List String)) (lastN : ℕ) : List (List String) :=
  if 0 < lastN then hist.drop (hist.length - lastN) else hist

/-- Embedding of the near-duplicate test of `pack_context` (lines 139-146):
active only when the threshold is present, positive, and some item has been
kept; true when some recent kept token list reaches the Jaccard bound. -/
def dupCheck (nearDup : Option ℚ) (lastN : ℕ) (toks : List String)
    (hist : List (List String)) : Bool :=
  match nearDup with
  | none => false
  | some ndj =>
    decide (0 < ndj) && !hist.isEmpty &&
      (histWindow hist lastN).any (fun past => decide (ndj ≤ jaccardQ toks past))

/-- `per_src_count.get(src, 0)` on the counters dict. -/
def countGet (m : List (String × ℕ)) (k : String) : ℕ :=
  match m with
  | [] => 0
  | (a, b) :: t => if a = k then b else countGet t k

/-- `per_src_count[src] = v` on the counters dict (insertion-ordered). -/
def countSet (m : List (String × ℕ)) (k : String) (v : ℕ) :
    List (String × ℕ) :=
  match m with
  | [] => [(k, v)]
  | (a, b) :: t => if a = k then (k, v) :: t else (a, b) :: countSet t k v

/-- Embedding of the main loop of `pack_context` (synthesizer.py lines
128-159), state-passing the enumeration index `i` (from 1), the accepted
items (paired with their source key), the used character budget, the
per-source counters and the kept token history.  The budget overflow branch
is Python's `break`: it returns the accepted items immediately. -/
def packLoopKeys (maxChars quota : ℕ) (nearDup : Option ℚ) (lastN : ℕ) :
    List SynthChunk → ℕ → List (String × PackedItem) → ℕ →
    List (String × ℕ) → List (List String) → List (String × PackedItem)
  | [], _, out, _, _, _ => out
  | ch :: rest, i, out, used, counts, hist =>
    let text := chunkText ch
    if text = "" then
      packLoopKeys maxChars quota nearDup lastN rest (i + 1) out used counts hist
    else
      let src := srcKey ch
      let cnt := countGet counts src
      if 0 < quota ∧ quota ≤ cnt then
        packLoopKeys maxChars quota nearDup lastN rest (i + 1) out used counts hist
      else
        let toks := pyTokens text
        if dupCheck nearDup lastN toks hist then
          packLoopKeys maxChars quota nearDup lastN rest (i + 1) out used counts hist
        else
          let add := text.length
          if 0 < used ∧ maxChars < used + add then out
          else
            let item : PackedItem :=
              { id := "C" ++ toString (out.length + 1),
                title := itemTitle ch i,
                uri_or_path := itemPath ch,
                text := text }
            packLoopKeys maxChars quota nearDup lastN rest (i + 1)
              (out ++ [(src, item)]) (used + add)
              (countSet counts src (cnt + 1)) (hist ++ [toks])

/-- The accepted items of `pack_context`, each with its source key. -/
def pack_contextKeys (chunks : List SynthChunk) (maxChars quota : ℕ)
    (nearDup : Option ℚ) (lastN : ℕ) : List (String × PackedItem) :=
  packLoopKeys maxChars quota nearDup lastN chunks 1 [] 0 [] []

/-- Embedding of `pack_context(chunks, max_chars, per_source_quota,
near_dup_jaccard, compare_last_n)` (synthesizer.py lines 101-161). -/
def pack_context (chunks : List SynthChunk) (maxChars quota : ℕ)
    (nearDup : Option ℚ) (lastN : ℕ) : List PackedItem :=
  (pack_contextKeys chunks maxChars quota nearDup lastN).map Prod.snd

/-- Concrete inputs for the character-budget behaviour of `pack_context`:
three chunks of 5, 8 and 2 characters from three distinct sources. -/
def c6a : SynthChunk := ⟨some "aaaaa", none, none, none, some "a", none, none⟩

def c6b : SynthChunk :=
  ⟨some "aaaaaaaa", none, none, none, some "b", none, none⟩

def c6c : SynthChunk := ⟨some "bb", none, none, none, some "c", none, none⟩

/-! ## Citation validation (`synthesizer.py` lines 202-224)

`CITATION_TAG_RE = \[C(\d+)\]` is embedded as a left-to-right scanner with
an explicit automaton state (a failed partial match resumes one character
after its starting `[`, which for this first-literal pattern is equivalent
to the automaton restart below); `SENT_SPLIT_RE = (?<=[.!?])\s+` as a
single pass that cuts at every whitespace run whose preceding character is
a sentence terminator. -/

inductive TagState where
  | idle : TagState
  | afterBracket : TagState
  | afterC : TagState
  | digits : List Char → TagState
deriving DecidableEq, Repr

/-- Scanner for all non-overlapping matches of `\[C(\d+)\]`, returning
`"C" + digits` for each match exactly as `f"C{m}"` does over
`CITATION_TAG_RE.findall`. -/
def scanTagsGo : List Char → TagState → List String
  | [], _ => []
  | c :: rest, st =>
    match st with
    | TagState.idle =>
      scanTagsGo rest (if c = '[' then TagState.afterBracket else TagState.idle)
    | TagState.afterBracket =>
      scanTagsGo rest
        (if c = 'C' then TagState.afterC
         else if c = '[' then TagState.afterBracket else TagState.idle)
    | TagState.afterC =>
      if c.isDigit then scanTagsGo rest (TagState.digits [c])
      else scanTagsGo rest
        (if c = '[' then TagState.afterBracket else TagState.idle)
    | TagState.digits ds =>
      if c.isDigit then scanTagsGo rest (TagState.digits (ds ++ [c]))
      else if c = ']' then
        ("C" ++ (⟨ds⟩ : String)) :: scanTagsGo rest TagState.idle
      else scanTagsGo rest
        (if c = '[' then TagState.afterBracket else TagState.idle)

/-- All citation tags occurring in a string (its `findall`). -/
def scanTags (s : String) : List String := scanTagsGo s.data TagState.idle

/-- Embedding of `CITATION_TAG_RE.search(s)` as a Boolean. -/
def hasTag (s : String) : Bool := !(scanTags s).isEmpty

/-- Embedding of `SENT_SPLIT_RE.split`: `some acc` is the current piece
(reversed) being built, `none` means a separator whitespace run is being
consumed.  A whitespace character starts a separator exactly when the
previous character of the current piece is `.`, `!` or `?`. -/
def splitGo : List Char → Option (List Char) → List (List Char)
  | [], some acc => [acc.reverse]
  | [], none => [[]]
  | c :: rest, some acc =>
    if isPySpace c &&
        (acc.head? == some '.' || acc.head? == some '!' ||
          acc.head? == some '?') then
      acc.reverse :: splitGo rest none
    else splitGo rest (some (c :: acc))
  | c :: rest, none =>
    if isPySpace c then splitGo rest none else splitGo rest (some [c])

/-- Embedding of `_sentences(text)` (synthesizer.py lines 197-198): split
pieces, stripped, with falsy pieces dropped. -/
def sentencesOf (s : String) : List String :=
  ((splitGo s.data (some [])).map (fun l => pyStrip ⟨l⟩)).filter
    (fun t => t != "")

/-- Embedding of `(s[:80] + "…") if len(s) > 80 else s`. -/
def previewOf (s : String) : String :=
  if 80 < s.length then (⟨s.data.take 80⟩ : String) ++ "…" else s

/-- Insertion step of `sorted` on strings (code-point order). -/
def insertStr (x : String) : List String → List String
  | [] => [x]
  | y :: ys => if x ≤ y then x :: y :: ys else y :: insertStr x ys

/-- Embedding of `sorted` on a list of strings. -/
def sortStrs : List String → List String
  | [] => []
  | x :: xs => insertStr x (sortStrs xs)

/-- Embedding of `{str(c.get("id")) for c in cits if c.get("id")}`: the
declared citation ids, keeping only truthy (present, non-empty) ones. -/
def citIds (p : ParsedResponse) : List String :=
  p.citations.filterMap (fun c =>
    match c.id with
    | some s => if s = "" then none else some s
    | none => none)

/-- Python `repr` of a sorted list of strings, as interpolated by
`f"...: {sorted(missing)}"`. -/
def pyReprStrList (l : List String) : String :=
  "[" ++ String.intercalate ", " (l.map (fun t => "\x27" ++ t ++ "\x27")) ++
    "]"

/-- Embedding of `validate_citations(parsed, strict)` (synthesizer.py lines
202-224). -/
def validate_citations (p : ParsedResponse) (strict : Bool) : Bool × String :=
  let ans := pyStrip (p.answer_markdown.getD "")
  let ids := citIds p
  let missing := sortStrs ((dedupKeepFirst (scanTags ans)).filter
    (fun t => decide (t ∉ ids)))
  if missing ≠ [] then
    (false, "answer contains citation tags not in citations array: " ++
      pyReprStrList missing)
  else if strict ∧ ans ≠ "" then
    match (sentencesOf ans).find? (fun s => !(hasTag s)) with
    | some s =>
      (false, "strict mode: sentence lacks citation tag: \x27" ++
        previewOf s ++ "\x27")
    | none => (true, "")
  else (true, "")

/-! ## Theorems -/

/-- C8: `decide_abstain` abstains exactly when the blended score
`0.5 * support_coverage (0 if absent) + 0.5 * clamp(avgSimilarity, 0, 1)`
falls below the threshold or the model set its own abstain flag; with
coverage and similarity both 1 it never abstains for thresholds ≤ 1 (absent
the model's own flag), and with both 0 it always abstains for positive
thresholds. -/
theorem decide_abstain_correct (p : ParsedResponse) (avg t : ℚ) :
    ((decide_abstain p avg t).1 =
      (decide (blended_spec (p.support_coverage.getD 0) avg < t) || p.abstain))
    ∧ (p.support_coverage = some 1 → p.abstain = false → t ≤ 1 →
        (decide_abstain p 1 t).1 = false)
    ∧ (p.support_coverage = some 0 → 0 < t →
        (decide_abstain p 0 t).1 = true) := by
  refine ⟨?_, ?_, ?_⟩
  · simp only [decide_abstain, blended_spec]
    split
    · simp_all
    · split <;> simp_all
  · intro hc ha ht
    simp only [decide_abstain, hc, Option.getD_some, ha]
    have h1 : (1/2 : ℚ) * 1 + 1/2 * max 0 (min 1 1) = 1 := by norm_num
    rw [h1]
    have : ¬ (1 : ℚ) < t := not_lt.mpr ht
    simp [this]
  · intro hc ht
    simp only [decide_abstain, hc, Option.getD_some]
    have h0 : (1/2 : ℚ) * 0 + 1/2 * max 0 (min 1 0) = 0 := by norm_num
    rw [h0]
    simp [ht]

/-- Witness for C8 at concrete inputs: full support never abstains at the
default threshold 0.70, zero support always abstains there. -/
theorem decide_abstain_correct_witness :
    (decide_abstain ⟨none, [], some 1, false, none⟩ 1 (7/10)).1 = false ∧
    (decide_abstain ⟨none, [], some 0, false, none⟩ 0 (7/10)).1 = true :=
  ⟨(decide_abstain_correct ⟨none, [], some 1, false, none⟩ 1 (7/10)).2.1
      rfl rfl (by norm_num),
   (decide_abstain_correct ⟨none, [], some 0, false, none⟩ 0 (7/10)).2.2
      rfl (by norm_num)⟩

/-- C1: the answer stage of `query_text` cannot call the character-budget
variant of `extract_answer`: the call site passes keyword arguments
(`max_chars`, `join_with`, `include_headings`, `dehyphenate`) that the
`extract_answer` signature in `answer/extract.py` does not declare, so
Python raises `TypeError` before any answer is produced, for every question
and chunk selection. -/
theorem query_text_answer_stage_raises :
    bindPyCall extract_answer_params 2 query_text_answer_call_kwargs =
      Except.error "unexpected keyword argument \x27max_chars\x27" := by
  rfl

/-! ### Lemmas about `expand_neighbors` -/

theorem lastIdx_cons_some {xs : List String} {x cid : String} {j : ℕ}
    (h : lastIdx xs cid = some j) :
    lastIdx (x :: xs) cid = some (j + 1) := by
  simp only [lastIdx, h]

theorem lastIdx_cons_none {xs : List String} {x cid : String}
    (h : lastIdx xs cid = none) :
    lastIdx (x :: xs) cid = if x = cid then some 0 else none := by
  simp only [lastIdx, h]

theorem lastIdx_spec {order : List String} {cid : String} :
    ∀ {i : ℕ}, lastIdx order cid = some i →
      i < order.length ∧ order.getD i "" = cid := by
  induction order with
  | nil => intro i h; simp [lastIdx] at h
  | cons x xs ih =>
    intro i h
    cases hx : lastIdx xs cid with
    | some j =>
      rw [lastIdx_cons_some hx] at h
      obtain rfl : j + 1 = i := Option.some.inj h
      obtain ⟨h1, h2⟩ := ih hx
      refine ⟨by simpa using Nat.succ_lt_succ h1, ?_⟩
      simpa using h2
    | none =>
      rw [lastIdx_cons_none hx] at h
      by_cases hxc : x = cid
      · rw [if_pos hxc] at h
        obtain rfl : (0 : ℕ) = i := Option.some.inj h
        subst hxc
        simp
      · rw [if_neg hxc] at h
        exact absurd h (by simp)

theorem lastIdx_eq_none {order : List String} {cid : String} :
    lastIdx order cid = none ↔ cid ∉ order := by
  induction order with
  | nil => simp [lastIdx]
  | cons x xs ih =>
    cases hx : lastIdx xs cid with
    | some j =>
      rw [lastIdx_cons_some hx]
      have hmem : cid ∈ xs := by
        by_contra hmem
        rw [← ih] at hmem
        rw [hmem] at hx
        exact absurd hx (by simp)
      simp [hmem]
    | none =>
      rw [lastIdx_cons_none hx]
      have hxs : cid ∉ xs := ih.mp hx
      by_cases hxc : x = cid
      · simp [hxc]
      · rw [if_neg hxc]
        constructor
        · intro _
          simp only [List.mem_cons, not_or]
          exact ⟨fun he => hxc he.symm, hxs⟩
        · intro _
          rfl

theorem sweepGo_cons_skip {order : List String} {j : ℤ} {rest : List ℤ}
    {out : List String} (hj : ¬ (0 ≤ j ∧ j < (order.length : ℤ))) :
    sweepGo order (j :: rest) out = sweepGo order rest out := by
  simp only [sweepGo, if_neg hj]

theorem sweepGo_cons_seen {order : List String} {j : ℤ} {rest : List ℤ}
    {out : List String} (hj : 0 ≤ j ∧ j < (order.length : ℤ))
    (hmem : order.getD j.toNat "" ∈ out) :
    sweepGo order (j :: rest) out = sweepGo order rest out := by
  simp only [sweepGo, if_pos hj, if_pos hmem]

theorem sweepGo_cons_new {order : List String} {j : ℤ} {rest : List ℤ}
    {out : List String} (hj : 0 ≤ j ∧ j < (order.length : ℤ))
    (hmem : order.getD j.toNat "" ∉ out) :
    sweepGo order (j :: rest) out =
      sweepGo order rest (out ++ [order.getD j.toNat ""]) := by
  simp only [sweepGo, if_pos hj, if_neg hmem]

theorem sweepGo_sub {order : List String} {js : List ℤ} :
    ∀ {out : List String} {x : String}, x ∈ sweepGo order js out →
      x ∈ out ∨ x ∈ order := by
  induction js with
  | nil => intro out x hx; exact Or.inl hx
  | cons j rest ih =>
    intro out x hx
    by_cases hj : 0 ≤ j ∧ j < (order.length : ℤ)
    · by_cases hmem : order.getD j.toNat "" ∈ out
      · rw [sweepGo_cons_seen hj hmem] at hx
        exact ih hx
      · rw [sweepGo_cons_new hj hmem] at hx
        rcases ih hx with h | h
        · rcases List.mem_append.mp h with h' | h'
          · exact Or.inl h'
          · right
            have hlt : j.toNat < order.length := by omega
            simp only [List.mem_singleton] at h'
            rw [h', List.getD_eq_getElem _ _ hlt]
            exact List.getElem_mem hlt
        · exact Or.inr h
    · rw [sweepGo_cons_skip hj] at hx
      exact ih hx

theorem sweepGo_nodup {order : List String} {js : List ℤ} :
    ∀ {out : List String}, out.Nodup → (sweepGo order js out).Nodup := by
  induction js with
  | nil => intro out h; exact h
  | cons j rest ih =>
    intro out h
    by_cases hj : 0 ≤ j ∧ j < (order.length : ℤ)
    · by_cases hmem : order.getD j.toNat "" ∈ out
      · rw [sweepGo_cons_seen hj hmem]
        exact ih h
      · rw [sweepGo_cons_new hj hmem]
        refine ih ?_
        rw [List.nodup_append]
        refine ⟨h, List.nodup_singleton _, fun a ha hb => ?_⟩
        rw [List.mem_singleton] at hb
        exact hmem (hb ▸ ha)
    · rw [sweepGo_cons_skip hj]
      exact ih h

theorem expandGo_cons_none {order : List String} {radius : ℕ} {cid : String}
    {rest out : List String} (h : lastIdx order cid = none) :
    expandGo order radius (cid :: rest) out = expandGo order radius rest out := by
  simp only [expandGo, h]

theorem expandGo_cons_some {order : List String} {radius : ℕ} {cid : String}
    {rest out : List String} {base : ℕ} (h : lastIdx order cid = some base) :
    expandGo order radius (cid :: rest) out =
      expandGo order radius rest
        (sweepGo order
          ((List.range (2 * radius + 1)).map
            (fun t : ℕ => (base : ℤ) - (radius : ℤ) + (t : ℤ)))
          out) := by
  simp only [expandGo, h]

theorem expandGo_sub {order : List String} {radius : ℕ} {ids : List String} :
    ∀ {out : List String} {x : String}, x ∈ expandGo order radius ids out →
      x ∈ out ∨ x ∈ order := by
  induction ids with
  | nil => intro out x hx; exact Or.inl hx
  | cons cid rest ih =>
    intro out x hx
    cases hidx : lastIdx order cid with
    | none =>
      rw [expandGo_cons_none hidx] at hx
      exact ih hx
    | some base =>
      rw [expandGo_cons_some hidx] at hx
      rcases ih hx with h | h
      · exact sweepGo_sub h
      · exact Or.inr h

theorem expandGo_nodup {order : List String} {radius : ℕ} {ids : List String} :
    ∀ {out : List String}, out.Nodup → (expandGo order radius ids out).Nodup := by
  induction ids with
  | nil => intro out h; exact h
  | cons cid rest ih =>
    intro out h
    cases hidx : lastIdx order cid with
    | none =>
      rw [expandGo_cons_none hidx]
      exact ih h
    | some base =>
      rw [expandGo_cons_some hidx]
      exact ih (sweepGo_nodup h)

theorem dedupKeepFirst_eq_self {l : List String} (h : l.Nodup) :
    dedupKeepFirst l = l := by
  induction l with
  | nil => rfl
  | cons x xs ih =>
    simp only [dedupKeepFirst]
    rw [ih h.of_cons]
    congr 1
    exact List.filter_eq_self.mpr fun a ha => by
      simp only [decide_eq_true_eq]
      exact fun he => (List.nodup_cons.mp h).1 (he ▸ ha)

theorem dedupKeepFirst_mem {l : List String} {x : String} :
    x ∈ dedupKeepFirst l ↔ x ∈ l := by
  induction l with
  | nil => simp [dedupKeepFirst]
  | cons y ys ih =>
    simp only [dedupKeepFirst, List.mem_cons, List.mem_filter, ih,
      decide_eq_true_eq]
    constructor
    · rintro (rfl | ⟨h, _⟩)
      · exact Or.inl rfl
      · exact Or.inr h
    · rintro (rfl | h)
      · exact Or.inl rfl
      · by_cases hxy : x = y
        · exact Or.inl hxy
        · exact Or.inr ⟨h, hxy⟩

theorem expandGo_zero (order : List String) (ids : List String) :
    ∀ out : List String,
      expandGo order 0 ids out =
        out ++ (dedupKeepFirst (ids.filter (fun c => decide (c ∈ order)))).filter
          (fun c => decide (c ∉ out)) := by
  induction ids with
  | nil => intro out; simp [expandGo, dedupKeepFirst]
  | cons c rest ih =>
    intro out
    by_cases hc : c ∈ order
    · obtain ⟨base, hbase⟩ : ∃ base, lastIdx order c = some base := by
        cases hl : lastIdx order c with
        | none => exact absurd (lastIdx_eq_none.mp hl) (by simpa using hc)
        | some b => exact ⟨b, rfl⟩
      obtain ⟨hlt, hget⟩ := lastIdx_spec hbase
      rw [expandGo_cons_some hbase]
      have hjs : (List.range (2 * 0 + 1)).map
          (fun t : ℕ => (base : ℤ) - ((0 : ℕ) : ℤ) + (t : ℤ)) = [(base : ℤ)] := by
        have h1 : 2 * 0 + 1 = 1 := by norm_num
        rw [h1, show List.range 1 = [0] from rfl]
        simp
      rw [hjs]
      have hj : (0 : ℤ) ≤ (base : ℤ) ∧ (base : ℤ) < (order.length : ℤ) :=
        ⟨Int.natCast_nonneg base, by exact_mod_cast hlt⟩
      have htn : ((base : ℤ)).toNat = base := Int.toNat_natCast base
      have hfc : (c :: rest).filter (fun c => decide (c ∈ order)) =
          c :: rest.filter (fun c => decide (c ∈ order)) := by
        simp [hc]
      by_cases hco : c ∈ out
      · have hmem : order.getD ((base : ℤ)).toNat "" ∈ out := by
          rw [htn, hget]; exact hco
        rw [sweepGo_cons_seen hj hmem]
        have : sweepGo order [] out = out := rfl
        rw [this, ih out, hfc]
        congr 1
        simp only [dedupKeepFirst, List.filter_cons, decide_eq_true_eq]
        rw [if_neg (by simpa using hco)]
        rw [List.filter_filter]
        refine List.filter_congr fun a _ => ?_
        by_cases hac : a = c
        · subst hac; simp [hco]
        · simp [hac]
      · have hmem : order.getD ((base : ℤ)).toNat "" ∉ out := by
          rw [htn, hget]; exact hco
        rw [sweepGo_cons_new hj hmem, htn, hget]
        have : sweepGo order [] (out ++ [c]) = out ++ [c] := rfl
        rw [this, ih (out ++ [c]), hfc]
        simp only [dedupKeepFirst, List.filter_cons, decide_eq_true_eq]
        rw [if_pos (by simpa using hco)]
        rw [List.append_assoc]
        congr 1
        simp only [List.cons_append, List.nil_append]
        congr 1
        rw [List.filter_filter]
        refine List.filter_congr fun a _ => ?_
        by_cases hac : a = c
        · subst hac; simp
        · simp [hac, List.mem_append]
    · rw [expandGo_cons_none (lastIdx_eq_none.mpr hc), ih out]
      congr 2
      simp [hc]

theorem expand_neighbors_zero_eq (ids order : List String) :
    expand_neighbors ids order 0 =
      dedupKeepFirst (ids.filter (fun c => decide (c ∈ order))) := by
  rw [expand_neighbors, expandGo_zero]
  simp

theorem expand_neighbors_idem_eq (ids order : List String) (r : ℕ) :
    expand_neighbors (expand_neighbors ids order r) order 0 =
      expand_neighbors ids order r := by
  have hsub : ∀ x ∈ expand_neighbors ids order r, x ∈ order := by
    intro x hx
    rcases expandGo_sub hx with h | h
    · simp at h
    · exact h
  have hnd : (expand_neighbors ids order r).Nodup := expandGo_nodup List.nodup_nil
  rw [expand_neighbors_zero_eq]
  rw [List.filter_eq_self.mpr fun a ha => by simpa using hsub a ha]
  exact dedupKeepFirst_eq_self hnd

/-- C10: `expand_neighbors` with radius 0 returns exactly the input ids
deduplicated (first occurrence kept) and filtered to ids present in the
corpus order, and re-expanding any expansion's output with radius 0 returns
it unchanged. -/
theorem expand_neighbors_zero_and_idem :
    (∀ ids order : List String, expand_neighbors ids order 0 =
      dedupKeepFirst (ids.filter (fun c => decide (c ∈ order))))
    ∧ ∀ (ids order : List String) (r : ℕ),
        expand_neighbors (expand_neighbors ids order r) order 0 =
          expand_neighbors ids order r :=
  ⟨expand_neighbors_zero_eq, expand_neighbors_idem_eq⟩

/-! ### Lemmas about the stable descending sort -/

theorem sortDescBy_perm {α : Type} (key : α → ℚ) (l : List α) :
    (sortDescBy key l).Perm l :=
  List.perm_insertionSort _ l

theorem sortDescBy_sorted {α : Type} (key : α → ℚ) (l : List α) :
    (sortDescBy key l).Pairwise (fun a b => key b ≤ key a) := by
  haveI h1 : IsTotal α (fun a b => key b ≤ key a) :=
    ⟨fun a b => le_total (key b) (key a)⟩
  haveI h2 : IsTrans α (fun a b => key b ≤ key a) :=
    ⟨fun a b c hab hbc => le_trans hbc hab⟩
  exact List.sorted_insertionSort _ l

theorem take_length_take {α : Type} (l : List α) (k : ℕ) :
    l.take ((l.take k).length) = l.take k := by
  rw [List.length_take]
  rcases le_total k l.length with h | h
  · rw [min_eq_left h]
  · rw [min_eq_right h, List.take_of_length_le h, List.take_of_length_le le_rfl]

theorem drop_length_take {α : Type} (l : List α) (k : ℕ) :
    l.drop ((l.take k).length) = l.drop k := by
  rw [List.length_take]
  rcases le_total k l.length with h | h
  · rw [min_eq_left h]
  · rw [min_eq_right h, List.drop_of_length_le h]
    exact List.drop_of_length_le (le_refl l.length)

/-- C4: `Reranker.rerank` returns the candidates unchanged with no scores
when the cross-encoder capability is unavailable, the candidate list is
empty, or scoring raises; and in every case — given the cross-encoder
contract of one score per input pair — the returned sequence is a
permutation of the first `top_k` candidates followed by the tail in
original order, hence a permutation of the whole input. -/
theorem rerank_graceful (enabled : Bool)
    (predict : List (String × String) → Except Unit (List ℚ))
    (query : String) (chunks : List Chunk) (top_k : ℕ)
    (hp : ∀ ps scores, predict ps = Except.ok scores →
      scores.length = ps.length) :
    (enabled = false →
      rerank enabled predict query chunks top_k = (chunks, none))
    ∧ (chunks = [] →
      rerank enabled predict query chunks top_k = (chunks, none))
    ∧ (∀ e, predict ((chunks.take top_k).map (fun c => (query, c.text))) =
        Except.error e →
      rerank enabled predict query chunks top_k = (chunks, none))
    ∧ ((rerank enabled predict query chunks top_k).1.take
        ((chunks.take top_k).length)).Perm (chunks.take top_k)
    ∧ ((rerank enabled predict query chunks top_k).1.drop
        ((chunks.take top_k).length)) = chunks.drop top_k
    ∧ (rerank enabled predict query chunks top_k).1.Perm chunks := by
  by_cases hdis : enabled = false ∨ chunks = []
  · have hr : rerank enabled predict query chunks top_k = (chunks, none) := by
      simp only [rerank, if_pos hdis]
    refine ⟨fun _ => hr, fun _ => hr, fun _ _ => hr, ?_, ?_, ?_⟩
    · rw [hr]
      show (chunks.take ((chunks.take top_k).length)).Perm (chunks.take top_k)
      rw [take_length_take]
    · rw [hr]
      exact drop_length_take chunks top_k
    · rw [hr]
  · push_neg at hdis
    obtain ⟨hen, hne⟩ := hdis
    cases hpred : predict ((chunks.take top_k).map (fun c => (query, c.text))) with
    | error e =>
      have hr : rerank enabled predict query chunks top_k = (chunks, none) := by
        simp only [rerank, if_neg (by simp [hen, hne] : ¬ (enabled = false ∨ chunks = []))]
        rw [hpred]
      refine ⟨fun h => absurd h hen, fun h => absurd h hne, fun _ _ => hr,
        ?_, ?_, ?_⟩
      · rw [hr]
        show (chunks.take ((chunks.take top_k).length)).Perm (chunks.take top_k)
        rw [take_length_take]
      · rw [hr]
        exact drop_length_take chunks top_k
      · rw [hr]
    | ok scores =>
      have hlen : scores.length = (chunks.take top_k).length := by
        have := hp _ _ hpred
        simpa using this
      have hzlen : ((chunks.take top_k).zip scores).length =
          (chunks.take top_k).length := by
        rw [List.length_zip, hlen, min_self]
      have hmapfst : ((chunks.take top_k).zip scores).map Prod.fst =
          chunks.take top_k :=
        List.map_fst_zip _ _ (le_of_eq hlen.symm)
      have hr : rerank enabled predict query chunks top_k =
          ((sortDescBy (fun p => p.2) ((chunks.take top_k).zip scores)).map
            Prod.fst ++ chunks.drop top_k, some scores) := by
        simp only [rerank, if_neg (by simp [hen, hne] : ¬ (enabled = false ∨ chunks = []))]
        rw [hpred]
      have hslen : ((sortDescBy (fun p => p.2)
          ((chunks.take top_k).zip scores)).map Prod.fst).length =
          (chunks.take top_k).length := by
        rw [List.length_map, (sortDescBy_perm _ _).length_eq, hzlen]
      have hpermtake : ((sortDescBy (fun p => p.2)
          ((chunks.take top_k).zip scores)).map Prod.fst).Perm
          (chunks.take top_k) := by
        have := (sortDescBy_perm (fun p : Chunk × ℚ => p.2)
          ((chunks.take top_k).zip scores)).map Prod.fst
        rw [hmapfst] at this
        exact this
      refine ⟨fun h => absurd h hen, fun h => absurd h hne,
        fun e he => absurd he (by simp), ?_, ?_, ?_⟩
      · rw [hr, ← hslen, List.take_left]
        exact hpermtake
      · rw [hr, ← hslen, List.drop_left]
      · rw [hr]
        have h2 := hpermtake.append_right (chunks.drop top_k)
        rw [List.take_append_drop] at h2
        exact h2

/-- Witness for C4: the disabled reranker is the identity on a concrete
one-chunk candidate list under the constant scoring oracle. -/
theorem rerank_graceful_witness :
    rerank false predConst "q" [⟨"a", "ta"⟩] 2 = ([⟨"a", "ta"⟩], none) :=
  (rerank_graceful false predConst "q" [⟨"a", "ta"⟩] 2
    (fun ps scores h => by
      simp only [predConst] at h
      injection h with h2
      rw [← h2, List.length_map])).1 rfl

/-- C5: evaluation of `rerank` at a concrete two-candidate input where the
cross-encoder scores the first candidate 1 and the second 2.  The returned
candidate order is the score-sorted `[cexChunkB, cexChunkA]`, but the
returned score list is the oracle's original-order `[1, 2]` — not the
`[2, 1]` that alignment with the reordered candidate list would require. -/
theorem rerank_scores_not_aligned :
    rerank true cexPredict "q" [cexChunkA, cexChunkB] 2 =
      ([cexChunkB, cexChunkA], some [1, 2])
    ∧ ¬ (rerank true cexPredict "q" [cexChunkA, cexChunkB] 2).2 =
      some [2, 1] := by
  decide

/-- C3: the post-rerank selection of `query_text`, given a non-empty
reranked candidate list and a positive final-k: the result is never empty;
with no scores the cutoff is skipped and the reranked list is truncated to
final-k; with scores available, candidates below the cutoff are dropped,
and if that eliminates every candidate the unfiltered reranked list
truncated to final-k is used instead. -/
theorem select_after_rerank_correct (rer : List Chunk)
    (so : Option (List ℚ)) (m : ℚ) (k : ℕ) (base : List Chunk)
    (hrer : rer ≠ []) (hk : 0 < k) :
    select_after_rerank rer so m k base ≠ []
    ∧ (so = none → select_after_rerank rer so m k base = rer.take k)
    ∧ ∀ scores, so = some scores → scores ≠ [] →
        ((((rer.zip scores).filter (fun p => decide (m ≤ p.2))).map Prod.fst = [] →
            select_after_rerank rer so m k base = rer.take k)
         ∧ (((rer.zip scores).filter (fun p => decide (m ≤ p.2))).map Prod.fst ≠ [] →
            select_after_rerank rer so m k base =
              ((((rer.zip scores).filter (fun p => decide (m ≤ p.2))).map
                Prod.fst).take k)
            ∧ ∀ p ∈ (rer.zip scores).filter (fun p => decide (m ≤ p.2)),
                m ≤ p.2)) := by
  have htake : rer.take k ≠ [] := by
    simp only [Ne, List.take_eq_nil_iff, not_or]
    exact ⟨Nat.pos_iff_ne_zero.mp hk, hrer⟩
  cases so with
  | none =>
    have hsel : select_after_rerank rer none m k base = rer.take k := by
      simp [select_after_rerank, hrer, htake]
    refine ⟨hsel ▸ htake, fun _ => hsel, ?_⟩
    intro scores hso
    simp at hso
  | some scores =>
    by_cases hsc : scores = []
    · subst hsc
      have hsel : select_after_rerank rer (some []) m k base = rer.take k := by
        simp [select_after_rerank, hrer, htake]
      refine ⟨hsel ▸ htake, ?_, ?_⟩
      · intro hso; simp at hso
      · intro s' hs' hne
        exact absurd (Option.some.inj hs').symm hne
    · by_cases hkept :
        ((rer.zip scores).filter (fun p => decide (m ≤ p.2))).map Prod.fst = []
      · have hsel : select_after_rerank rer (some scores) m k base =
            rer.take k := by
          simp [select_after_rerank, hrer, hsc, hkept, htake]
        refine ⟨hsel ▸ htake, ?_, ?_⟩
        · intro hso; simp at hso
        · intro s' hs' hne
          obtain rfl : scores = s' := Option.some.inj hs'
          exact ⟨fun _ => hsel, fun hne2 => absurd hkept hne2⟩
      · have hktake :
            (((rer.zip scores).filter (fun p => decide (m ≤ p.2))).map
              Prod.fst).take k ≠ [] := by
          simp only [Ne, List.take_eq_nil_iff, not_or]
          exact ⟨Nat.pos_iff_ne_zero.mp hk, hkept⟩
        have hsel : select_after_rerank rer (some scores) m k base =
            (((rer.zip scores).filter (fun p => decide (m ≤ p.2))).map
              Prod.fst).take k := by
          simp [select_after_rerank, hrer, hsc, hkept, hktake]
        refine ⟨hsel ▸ hktake, ?_, ?_⟩
        · intro hso; simp at hso
        · intro s' hs' hne
          obtain rfl : scores = s' := Option.some.inj hs'
          refine ⟨fun h0 => absurd h0 hkept, fun _ => ⟨hsel, fun p hp => ?_⟩⟩
          simpa using (List.mem_filter.mp hp).2

/-- Witness for C3 at a concrete input: one candidate scored 0 against a
cutoff of 1 is eliminated, and the safe fallback still returns it. -/
theorem select_after_rerank_correct_witness :
    select_after_rerank [⟨"a", "t"⟩] (some [0]) 1 1 [] ≠ [] :=
  (select_after_rerank_correct [⟨"a", "t"⟩] (some [0]) 1 1 []
    (by decide) (by decide)).1

/-! ### Lemmas about reciprocal-rank fusion -/

theorem valOf_updateScore (l : List Hit) (cid : String) (q : ℚ) (c : String) :
    valOf (updateScore l cid q) c =
      if c = cid then valOf l cid + q else valOf l c := by
  induction l with
  | nil =>
    by_cases hc : c = cid
    · subst hc
      simp [updateScore, valOf]
    · have h1 : ¬ cid = c := fun h => hc h.symm
      simp [updateScore, valOf, hc, h1]
  | cons h t ih =>
    by_cases hh : h.chunk_id = cid
    · by_cases hc : c = cid
      · subst hc
        simp [updateScore, valOf, hh]
      · have h1 : ¬ cid = c := fun e => hc e.symm
        have h2 : ¬ h.chunk_id = c := fun e => hc ((hh.symm.trans e).symm)
        simp [updateScore, valOf, hh, hc, h1, h2]
    · by_cases hc : c = cid
      · subst hc
        simp [updateScore, valOf, hh, ih]
      · simp [updateScore, valOf, hh, hc, ih]

theorem keys_updateScore (l : List Hit) (cid : String) (q : ℚ) :
    (updateScore l cid q).map Hit.chunk_id =
      if cid ∈ l.map Hit.chunk_id then l.map Hit.chunk_id
      else l.map Hit.chunk_id ++ [cid] := by
  induction l with
  | nil => simp [updateScore]
  | cons h t ih =>
    by_cases hh : h.chunk_id = cid
    · simp [updateScore, hh]
    · by_cases hc : cid ∈ t.map Hit.chunk_id
      · simp [updateScore, hh, hc, ih]
      · have h1 : ¬ cid = h.chunk_id := fun e => hh e.symm
        simp [updateScore, hh, hc, ih, h1]

theorem accumRRF_valOf (k : ℕ) (L : List Hit) :
    ∀ (r : ℕ) (sc : List Hit), (L.map Hit.chunk_id).Nodup → ∀ c : String,
      valOf (accumRRF k r L sc) c =
        valOf sc c +
          (if c ∈ L.map Hit.chunk_id then
            1 / ((k : ℚ) + ((r + rankIn L c - 1 : ℕ) : ℚ))
          else 0) := by
  induction L with
  | nil => intro r sc _ c; simp [accumRRF]
  | cons h t ih =>
    intro r sc hnd c
    simp only [List.map_cons] at hnd
    obtain ⟨hHnotT, hnd'⟩ := List.nodup_cons.mp hnd
    simp only [accumRRF]
    rw [ih (r + 1) _ hnd' c, valOf_updateScore]
    by_cases hc : c = h.chunk_id
    · subst hc
      rw [if_pos rfl, if_neg hHnotT, add_zero]
      have h1 : rankIn (h :: t) h.chunk_id = 1 := by simp [rankIn]
      have h2 : h.chunk_id ∈ (h :: t).map Hit.chunk_id := by simp
      rw [if_pos h2, h1]
      have h3 : (r + 1 - 1 : ℕ) = r := by omega
      rw [h3]
    · rw [if_neg hc]
      by_cases hct : c ∈ t.map Hit.chunk_id
      · have hmm : c ∈ (h :: t).map Hit.chunk_id := by simp [hct]
        rw [if_pos hct, if_pos hmm]
        have hrk : rankIn (h :: t) c = rankIn t c + 1 := by
          simp [rankIn, show ¬ h.chunk_id = c from fun e => hc e.symm]
        rw [hrk]
        have h3 : (r + 1 + rankIn t c - 1 : ℕ) =
            (r + (rankIn t c + 1) - 1 : ℕ) := by omega
        rw [h3]
      · have hmm : c ∉ (h :: t).map Hit.chunk_id := by
          simp only [List.map_cons, List.mem_cons, not_or]
          exact ⟨hc, hct⟩
        rw [if_neg hct, if_neg hmm]

theorem accumRRF_keys (k : ℕ) (L : List Hit) :
    ∀ (r : ℕ) (sc : List Hit), (L.map Hit.chunk_id).Nodup →
      (accumRRF k r L sc).map Hit.chunk_id =
        sc.map Hit.chunk_id ++
          (L.map Hit.chunk_id).filter
            (fun c => decide (c ∉ sc.map Hit.chunk_id)) := by
  induction L with
  | nil => intro r sc _; simp [accumRRF]
  | cons h t ih =>
    intro r sc hnd
    simp only [List.map_cons] at hnd
    obtain ⟨hHnotT, hnd'⟩ := List.nodup_cons.mp hnd
    simp only [accumRRF]
    rw [ih (r + 1) _ hnd', keys_updateScore]
    by_cases hmem : h.chunk_id ∈ sc.map Hit.chunk_id
    · rw [if_pos hmem]
      congr 1
      rw [List.map_cons, List.filter_cons]
      rw [if_neg (by simpa using hmem)]
    · rw [if_neg hmem]
      rw [List.map_cons, List.filter_cons, if_pos (by simpa using hmem)]
      rw [List.append_assoc]
      congr 1
      rw [List.singleton_append]
      congr 1
      refine List.filter_congr fun a ha => ?_
      have hane : a ≠ h.chunk_id := fun e => hHnotT (e ▸ ha)
      simp [List.mem_append, hane]

theorem hits_eq_map_keys (l : List Hit)
    (h : (l.map Hit.chunk_id).Nodup) :
    l = (l.map Hit.chunk_id).map (fun c => ⟨c, valOf l c⟩) := by
  induction l with
  | nil => rfl
  | cons h0 t ih =>
    simp only [List.map_cons] at h ⊢
    obtain ⟨hh, h'⟩ := List.nodup_cons.mp h
    congr 1
    · show h0 = ⟨h0.chunk_id, valOf (h0 :: t) h0.chunk_id⟩
      have : valOf (h0 :: t) h0.chunk_id = h0.score := by simp [valOf]
      rw [this]
    · have hcg : ∀ c ∈ t.map Hit.chunk_id,
          (fun c => (⟨c, valOf t c⟩ : Hit)) c =
            (fun c => (⟨c, valOf (h0 :: t) c⟩ : Hit)) c := by
        intro c hc
        have hne : ¬ h0.chunk_id = c := fun e => hh (e ▸ hc)
        simp [valOf, hne]
      calc t = (t.map Hit.chunk_id).map (fun c => ⟨c, valOf t c⟩) := ih h'
        _ = (t.map Hit.chunk_id).map (fun c => ⟨c, valOf (h0 :: t) c⟩) :=
          List.map_congr_left hcg

theorem dedupKeepFirst_append_nodup :
    ∀ {xs ys : List String}, xs.Nodup → ys.Nodup →
      dedupKeepFirst (xs ++ ys) =
        xs ++ ys.filter (fun c => decide (c ∉ xs)) := by
  intro xs
  induction xs with
  | nil =>
    intro ys _ hy
    simp only [List.nil_append]
    rw [dedupKeepFirst_eq_self hy]
    refine (List.filter_eq_self.mpr fun a _ => ?_).symm
    simp
  | cons x xs ih =>
    intro ys hx hy
    obtain ⟨hxx, hx'⟩ := List.nodup_cons.mp hx
    simp only [List.cons_append, dedupKeepFirst, List.append_eq]
    rw [ih hx' hy]
    congr 1
    rw [List.filter_append]
    have hxs : xs.filter (fun y => decide (y ≠ x)) = xs :=
      List.filter_eq_self.mpr fun a ha => by
        simp only [decide_eq_true_eq]
        exact fun e => hxx (e ▸ ha)
    rw [hxs]
    congr 1
    rw [List.filter_filter]
    refine List.filter_congr fun a _ => ?_
    by_cases hax : a = x
    · subst hax
      simp
    · by_cases haxs : a ∈ xs <;> simp [hax, haxs]

theorem filter_orderedInsert {α : Type} (key : α → ℚ) (s : ℚ) (x : α)
    (l : List α) :
    (List.orderedInsert (fun a b => key b ≤ key a) x l).filter
      (fun y => decide (key y = s)) =
      if key x = s then
        x :: l.filter (fun y => decide (key y = s))
      else l.filter (fun y => decide (key y = s)) := by
  induction l with
  | nil =>
    by_cases hx : key x = s
    · simp [List.orderedInsert, hx]
    · simp [List.orderedInsert, hx]
  | cons b l ih =>
    simp only [List.orderedInsert]
    by_cases hr : key b ≤ key x
    · rw [if_pos hr]
      by_cases hx : key x = s <;> simp [List.filter_cons, hx]
    · rw [if_neg hr]
      rw [List.filter_cons, ih]
      by_cases hx : key x = s
      · have hb : ¬ key b = s := fun e => hr (le_of_eq (e.trans hx.symm))
        rw [if_pos hx, if_pos hx]
        simp [List.filter_cons, hb]
      · rw [if_neg hx, if_neg hx, List.filter_cons]

theorem filter_sortDescBy {α : Type} (key : α → ℚ) (s : ℚ) (l : List α) :
    (sortDescBy key l).filter (fun y => decide (key y = s)) =
      l.filter (fun y => decide (key y = s)) := by
  induction l with
  | nil => rfl
  | cons x xs ih =>
    simp only [sortDescBy, List.insertionSort] at ih ⊢
    rw [filter_orderedInsert, ih]
    by_cases hx : key x = s
    · rw [if_pos hx, List.filter_cons, if_pos (by simpa using hx)]
    · rw [if_neg hx, List.filter_cons, if_neg (by simpa using hx)]

/-- C2: for hit lists with per-list distinct ids, `rrf_merge` contains
exactly one entry per id occurring in either list, scored
`1/(k+rankA) + 1/(k+rankB)` (one term per list containing the id, ranks
1-based); the output is sorted by non-increasing score; and within each
score level the ids appear in first-encountered insertion order (the first
list's hits before the second list's new ones). -/
theorem rrf_merge_correct (A B : List Hit) (k : ℕ)
    (hA : (A.map Hit.chunk_id).Nodup) (hB : (B.map Hit.chunk_id).Nodup) :
    (∀ h : Hit, h ∈ rrf_merge A B k ↔
      ((h.chunk_id ∈ A.map Hit.chunk_id ∨ h.chunk_id ∈ B.map Hit.chunk_id)
        ∧ h.score = rrfScoreSpec A B k h.chunk_id))
    ∧ (rrf_merge A B k).Pairwise (fun x y => y.score ≤ x.score)
    ∧ ∀ s : ℚ,
        ((rrf_merge A B k).filter (fun h => decide (h.score = s))).map
          Hit.chunk_id =
        (dedupKeepFirst (A.map Hit.chunk_id ++ B.map Hit.chunk_id)).filter
          (fun c => decide (rrfScoreSpec A B k c = s)) := by
  set sc := accumRRF k 1 B (accumRRF k 1 A []) with hsc
  have hrm : rrf_merge A B k = sortDescBy Hit.score sc := by
    rw [rrf_merge, hsc]
  have hkeysA : (accumRRF k 1 A []).map Hit.chunk_id = A.map Hit.chunk_id := by
    rw [accumRRF_keys k A 1 [] hA]
    simp
  have hkeys : sc.map Hit.chunk_id =
      A.map Hit.chunk_id ++ (B.map Hit.chunk_id).filter
        (fun c => decide (c ∉ A.map Hit.chunk_id)) := by
    rw [hsc, accumRRF_keys k B 1 _ hB, hkeysA]
  have hkeysnd : (sc.map Hit.chunk_id).Nodup := by
    rw [hkeys]
    refine List.Nodup.append hA (hB.filter _) ?_
    intro a haA haF
    have := (List.mem_filter.mp haF).2
    simp only [decide_eq_true_eq] at this
    exact this haA
  have hvalA : ∀ c, valOf (accumRRF k 1 A []) c = rrfContribution k A c := by
    intro c
    rw [accumRRF_valOf k A 1 [] hA c]
    have h3 : (1 + rankIn A c - 1 : ℕ) = rankIn A c := by omega
    rw [h3]
    simp [valOf, rrfContribution]
  have hval : ∀ c, valOf sc c = rrfScoreSpec A B k c := by
    intro c
    rw [hsc, accumRRF_valOf k B 1 _ hB c, hvalA c]
    have h3 : (1 + rankIn B c - 1 : ℕ) = rankIn B c := by omega
    rw [h3]
    simp [rrfScoreSpec, rrfContribution]
  have hmapform : sc = (sc.map Hit.chunk_id).map (fun c => ⟨c, valOf sc c⟩) :=
    hits_eq_map_keys sc hkeysnd
  refine ⟨?_, ?_, ?_⟩
  · intro h
    rw [hrm, (sortDescBy_perm Hit.score sc).mem_iff]
    constructor
    · intro hmem
      rw [hmapform] at hmem
      obtain ⟨c, hcmem, hceq⟩ := List.mem_map.mp hmem
      subst hceq
      refine ⟨?_, hval c⟩
      rw [hkeys] at hcmem
      rcases List.mem_append.mp hcmem with h1 | h1
      · exact Or.inl h1
      · exact Or.inr (List.mem_filter.mp h1).1
    · rintro ⟨hmem, hscore⟩
      have hc : h.chunk_id ∈ sc.map Hit.chunk_id := by
        rw [hkeys]
        by_cases hinA : h.chunk_id ∈ A.map Hit.chunk_id
        · exact List.mem_append.mpr (Or.inl hinA)
        · rcases hmem with h1 | h1
          · exact absurd h1 hinA
          · exact List.mem_append.mpr
              (Or.inr (List.mem_filter.mpr ⟨h1, by simpa using hinA⟩))
      rw [hmapform]
      refine List.mem_map.mpr ⟨h.chunk_id, hc, ?_⟩
      have hv : valOf sc h.chunk_id = h.score := by rw [hval, ← hscore]
      rw [hv]
  · rw [hrm]
    exact sortDescBy_sorted Hit.score sc
  · intro s
    rw [hrm, filter_sortDescBy Hit.score s sc]
    conv_lhs => rw [hmapform]
    rw [List.filter_map, List.map_map]
    have hcomp :
        (Hit.chunk_id ∘ fun c => (⟨c, valOf sc c⟩ : Hit)) = id := rfl
    rw [hcomp, List.map_id]
    rw [dedupKeepFirst_append_nodup hA hB, ← hkeys]
    refine List.filter_congr fun c hc => ?_
    simp [Function.comp, hval c]

/-- Witness for C2 at concrete singleton hit lists. -/
theorem rrf_merge_correct_witness :
    (rrf_merge [⟨"x", 5⟩] [⟨"y", 7⟩] 60).Pairwise
      (fun x y => y.score ≤ x.score) :=
  (rrf_merge_correct [⟨"x", 5⟩] [⟨"y", 7⟩] 60 (by decide) (by decide)).2.1

/-! ### Lemmas about `pack_context` -/

theorem packLoop_cons_empty {m q : ℕ} {nd : Option ℚ} {n : ℕ}
    {ch : SynthChunk} {rest : List SynthChunk} {i : ℕ}
    {out : List (String × PackedItem)} {used : ℕ}
    {counts : List (String × ℕ)} {hist : List (List String)}
    (h : chunkText ch = "") :
    packLoopKeys m q nd n (ch :: rest) i out used counts hist =
      packLoopKeys m q nd n rest (i + 1) out used counts hist := by
  simp [packLoopKeys, h]

theorem packLoop_cons_quota {m q : ℕ} {nd : Option ℚ} {n : ℕ}
    {ch : SynthChunk} {rest : List SynthChunk} {i : ℕ}
    {out : List (String × PackedItem)} {used : ℕ}
    {counts : List (String × ℕ)} {hist : List (List String)}
    (h1 : chunkText ch ≠ "")
    (h2 : 0 < q ∧ q ≤ countGet counts (srcKey ch)) :
    packLoopKeys m q nd n (ch :: rest) i out used counts hist =
      packLoopKeys m q nd n rest (i + 1) out used counts hist := by
  simp only [packLoopKeys]
  rw [if_neg h1, if_pos h2]

theorem packLoop_cons_dup {m q : ℕ} {nd : Option ℚ} {n : ℕ}
    {ch : SynthChunk} {rest : List SynthChunk} {i : ℕ}
    {out : List (String × PackedItem)} {used : ℕ}
    {counts : List (String × ℕ)} {hist : List (List String)}
    (h1 : chunkText ch ≠ "")
    (h2 : ¬ (0 < q ∧ q ≤ countGet counts (srcKey ch)))
    (h3 : dupCheck nd n (pyTokens (chunkText ch)) hist = true) :
    packLoopKeys m q nd n (ch :: rest) i out used counts hist =
      packLoopKeys m q nd n rest (i + 1) out used counts hist := by
  simp only [packLoopKeys]
  rw [if_neg h1, if_neg h2, if_pos h3]

theorem packLoop_cons_break {m q : ℕ} {nd : Option ℚ} {n : ℕ}
    {ch : SynthChunk} {rest : List SynthChunk} {i : ℕ}
    {out : List (String × PackedItem)} {used : ℕ}
    {counts : List (String × ℕ)} {hist : List (List String)}
    (h1 : chunkText ch ≠ "")
    (h2 : ¬ (0 < q ∧ q ≤ countGet counts (srcKey ch)))
    (h3 : dupCheck nd n (pyTokens (chunkText ch)) hist = false)
    (h4 : 0 < used ∧ m < used + (chunkText ch).length) :
    packLoopKeys m q nd n (ch :: rest) i out used counts hist = out := by
  simp only [packLoopKeys]
  rw [if_neg h1, if_neg h2, h3]
  rw [if_neg (by simp), if_pos h4]

theorem packLoop_cons_accept {m q : ℕ} {nd : Option ℚ} {n : ℕ}
    {ch : SynthChunk} {rest : List SynthChunk} {i : ℕ}
    {out : List (String × PackedItem)} {used : ℕ}
    {counts : List (String × ℕ)} {hist : List (List String)}
    (h1 : chunkText ch ≠ "")
    (h2 : ¬ (0 < q ∧ q ≤ countGet counts (srcKey ch)))
    (h3 : dupCheck nd n (pyTokens (chunkText ch)) hist = false)
    (h4 : ¬ (0 < used ∧ m < used + (chunkText ch).length)) :
    packLoopKeys m q nd n (ch :: rest) i out used counts hist =
      packLoopKeys m q nd n rest (i + 1)
        (out ++ [(srcKey ch,
          { id := "C" ++ toString (out.length + 1),
            title := itemTitle ch i,
            uri_or_path := itemPath ch,
            text := chunkText ch })])
        (used + (chunkText ch).length)
        (countSet counts (srcKey ch) (countGet counts (srcKey ch) + 1))
        (hist ++ [pyTokens (chunkText ch)]) := by
  simp only [packLoopKeys]
  rw [if_neg h1, if_neg h2, h3]
  rw [if_neg (by simp), if_neg h4]

theorem filter_singleton_pair (src : String) (it : PackedItem)
    (t : String) :
    (([(src, it)] : List (String × PackedItem)).filter
      (fun p => decide (p.1 = t))).length = if src = t then 1 else 0 := by
  by_cases h : src = t <;> simp [h]

theorem countGet_countSet (m : List (String × ℕ)) (k : String) (v : ℕ)
    (s : String) :
    countGet (countSet m k v) s = if s = k then v else countGet m s := by
  induction m with
  | nil =>
    by_cases hs : s = k
    · subst hs; simp [countSet, countGet]
    · have h1 : ¬ k = s := fun e => hs e.symm
      simp [countSet, countGet, hs, h1]
  | cons a t ih =>
    obtain ⟨a1, a2⟩ := a
    by_cases hak : a1 = k
    · subst hak
      by_cases hs : s = a1
      · subst hs; simp [countSet, countGet]
      · have h1 : ¬ a1 = s := fun e => hs e.symm
        simp [countSet, countGet, hs, h1]
    · by_cases has : a1 = s
      · subst has
        simp [countSet, countGet, hak]
      · simp [countSet, countGet, hak, has, ih]

theorem packLoopKeys_quota (m q : ℕ) (nd : Option ℚ) (n : ℕ) (hq : 0 < q) :
    ∀ (chunks : List SynthChunk) (i : ℕ)
      (out : List (String × PackedItem)) (used : ℕ)
      (counts : List (String × ℕ)) (hist : List (List String)),
      (∀ s, countGet counts s =
        (out.filter (fun p => decide (p.1 = s))).length) →
      (∀ s, (out.filter (fun p => decide (p.1 = s))).length ≤ q) →
      ∀ s, ((packLoopKeys m q nd n chunks i out used counts hist).filter
        (fun p => decide (p.1 = s))).length ≤ q := by
  intro chunks
  induction chunks with
  | nil => intro i out used counts hist _ hbound s; exact hbound s
  | cons ch rest ih =>
    intro i out used counts hist hcount hbound s
    by_cases h1 : chunkText ch = ""
    · rw [packLoop_cons_empty h1]
      exact ih (i + 1) out used counts hist hcount hbound s
    · by_cases h2 : 0 < q ∧ q ≤ countGet counts (srcKey ch)
      · rw [packLoop_cons_quota h1 h2]
        exact ih (i + 1) out used counts hist hcount hbound s
      · cases h3 : dupCheck nd n (pyTokens (chunkText ch)) hist with
        | true =>
          rw [packLoop_cons_dup h1 h2 h3]
          exact ih (i + 1) out used counts hist hcount hbound s
        | false =>
          by_cases h4 : 0 < used ∧ m < used + (chunkText ch).length
          · rw [packLoop_cons_break h1 h2 h3 h4]
            exact hbound s
          · rw [packLoop_cons_accept h1 h2 h3 h4]
            have hcnt : countGet counts (srcKey ch) < q := by
              rcases Nat.lt_or_ge (countGet counts (srcKey ch)) q with h | h
              · exact h
              · exact absurd ⟨hq, h⟩ h2
            refine ih (i + 1) _ _ _ _ ?_ ?_ s
            · intro t
              rw [countGet_countSet, List.filter_append, List.length_append,
                filter_singleton_pair]
              by_cases hs : t = srcKey ch
              · rw [if_pos hs, if_pos hs.symm, ← hcount t, hs]
              · rw [if_neg hs, if_neg (fun e => hs e.symm), ← hcount t]
                simp
            · intro t
              rw [List.filter_append, List.length_append,
                filter_singleton_pair]
              by_cases hs : srcKey ch = t
              · rw [if_pos hs]
                have hlen : (out.filter (fun p => decide (p.1 = t))).length =
                    countGet counts t := (hcount t).symm
                rw [hlen, ← hs]
                omega
              · rw [if_neg hs]
                simpa using hbound t

/-- C7: `pack_context` never accepts more than `per_source_quota` items
from one source key, for any input, budget and duplicate settings; the
packed output is the key-annotated acceptance list with the keys dropped. -/
theorem pack_context_per_source_quota (chunks : List SynthChunk)
    (m q : ℕ) (nd : Option ℚ) (n : ℕ) (hq : 0 < q) :
    pack_context chunks m q nd n =
      (pack_contextKeys chunks m q nd n).map Prod.snd
    ∧ ∀ s : String,
        ((pack_contextKeys chunks m q nd n).filter
          (fun p => decide (p.1 = s))).length ≤ q :=
  ⟨rfl, fun s =>
    packLoopKeys_quota m q nd n hq chunks 1 [] 0 [] []
      (fun _ => rfl) (fun _ => Nat.zero_le q) s⟩

/-- Witness for C7 at a concrete one-chunk input and quota 1. -/
theorem pack_context_per_source_quota_witness :
    ((pack_contextKeys [c6a] 100 1 none 3).filter
      (fun p => decide (p.1 = "a"))).length ≤ 1 :=
  (pack_context_per_source_quota [c6a] 100 1 none 3 (by decide)).2 "a"

theorem packLoopKeys_extends (m q : ℕ) (nd : Option ℚ) (n : ℕ) :
    ∀ (chunks : List SynthChunk) (i : ℕ)
      (out : List (String × PackedItem)) (used : ℕ)
      (counts : List (String × ℕ)) (hist : List (List String)),
      ∃ ext, packLoopKeys m q nd n chunks i out used counts hist =
        out ++ ext := by
  intro chunks
  induction chunks with
  | nil =>
    intro i out used counts hist
    exact ⟨[], by simp [packLoopKeys]⟩
  | cons ch rest ih =>
    intro i out used counts hist
    by_cases h1 : chunkText ch = ""
    · rw [packLoop_cons_empty h1]
      exact ih (i + 1) out used counts hist
    · by_cases h2 : 0 < q ∧ q ≤ countGet counts (srcKey ch)
      · rw [packLoop_cons_quota h1 h2]
        exact ih (i + 1) out used counts hist
      · cases h3 : dupCheck nd n (pyTokens (chunkText ch)) hist with
        | true =>
          rw [packLoop_cons_dup h1 h2 h3]
          exact ih (i + 1) out used counts hist
        | false =>
          by_cases h4 : 0 < used ∧ m < used + (chunkText ch).length
          · rw [packLoop_cons_break h1 h2 h3 h4]
            exact ⟨[], by simp⟩
          · rw [packLoop_cons_accept h1 h2 h3 h4]
            obtain ⟨ext, hext⟩ := ih (i + 1)
              (out ++ [(srcKey ch,
                { id := "C" ++ toString (out.length + 1),
                  title := itemTitle ch i,
                  uri_or_path := itemPath ch,
                  text := chunkText ch })])
              (used + (chunkText ch).length)
              (countSet counts (srcKey ch) (countGet counts (srcKey ch) + 1))
              (hist ++ [pyTokens (chunkText ch)])
            exact ⟨_ , by rw [hext, List.append_assoc]⟩

theorem dupCheck_nil_hist (nd : Option ℚ) (n : ℕ) (toks : List String) :
    dupCheck nd n toks [] = false := by
  cases nd <;> simp [dupCheck, histWindow]

theorem packLoop_head (m q : ℕ) (nd : Option ℚ) (n : ℕ) :
    ∀ (chunks : List SynthChunk) (i : ℕ) (ch₀ : SynthChunk),
      chunks.find? (fun ch => chunkText ch != "") = some ch₀ →
      ((packLoopKeys m q nd n chunks i [] 0 [] []).map Prod.snd).head?.map
        PackedItem.text = some (chunkText ch₀) := by
  intro chunks
  induction chunks with
  | nil => intro i ch₀ h; simp at h
  | cons ch rest ih =>
    intro i ch₀ h
    by_cases h1 : chunkText ch = ""
    · have hpred : (chunkText ch != "") = false := by simp [h1]
      rw [List.find?_cons, hpred] at h
      rw [packLoop_cons_empty h1]
      exact ih (i + 1) ch₀ h
    · have hpred : (chunkText ch != "") = true := by simp [h1]
      rw [List.find?_cons, hpred] at h
      obtain rfl : ch = ch₀ := Option.some.inj h
      have h2 : ¬ (0 < q ∧ q ≤ countGet [] (srcKey ch)) := by
        rintro ⟨hq, hle⟩
        simp [countGet] at hle
        omega
      have h3 : dupCheck nd n (pyTokens (chunkText ch)) [] = false :=
        dupCheck_nil_hist nd n _
      have h4 : ¬ ((0 : ℕ) < 0 ∧ m < 0 + (chunkText ch).length) := by simp
      rw [packLoop_cons_accept h1 h2 h3 h4]
      obtain ⟨ext, hext⟩ := packLoopKeys_extends m q nd n rest (i + 1)
        ([] ++ [(srcKey ch,
          { id := "C" ++ toString (([] :
              List (String × PackedItem)).length + 1),
            title := itemTitle ch i,
            uri_or_path := itemPath ch,
            text := chunkText ch })])
        (0 + (chunkText ch).length)
        (countSet [] (srcKey ch) (countGet [] (srcKey ch) + 1))
        ([] ++ [pyTokens (chunkText ch)])
      rw [hext]
      simp

/-- C6 counterexample: with a 10-character budget, after accepting a
5-character chunk, an 8-character chunk overflows the budget and the loop
stops: the later 2-character chunk "bb" (which would fit, 5+2 ≤ 10) is
never considered, so the packed output is just the first chunk. -/
theorem pack_context_break_cex :
    (pack_context [c6a, c6b, c6c] 10 3 none 3).map PackedItem.text =
      ["aaaaa"]
    ∧ "bb" ∉ (pack_context [c6a, c6b, c6c] 10 3 none 3).map
        PackedItem.text := by
  decide

/-- C6 (amended): the budget check of `pack_context` applies only once at
least one item has been accepted, so the first candidate passing the
non-empty-text, quota and near-duplicate checks is accepted even when its
length exceeds `max_chars`, and the output is non-empty whenever some
candidate has non-empty stripped text; but a candidate whose length would
push the accepted total over `max_chars` stops the packing loop entirely
(it is not merely skipped: later candidates are not considered). -/
theorem pack_context_first_accept (chunks : List SynthChunk) (m q : ℕ)
    (nd : Option ℚ) (n : ℕ) (ch₀ : SynthChunk)
    (h : chunks.find? (fun ch => chunkText ch != "") = some ch₀) :
    pack_context chunks m q nd n ≠ []
    ∧ (pack_context chunks m q nd n).head?.map PackedItem.text =
        some (chunkText ch₀)
    ∧ ∀ (ch : SynthChunk) (rest : List SynthChunk) (i : ℕ)
        (out : List (String × PackedItem)) (used : ℕ)
        (counts : List (String × ℕ)) (hist : List (List String)),
        chunkText ch ≠ "" →
        ¬ (0 < q ∧ q ≤ countGet counts (srcKey ch)) →
        dupCheck nd n (pyTokens (chunkText ch)) hist = false →
        0 < used → m < used + (chunkText ch).length →
        packLoopKeys m q nd n (ch :: rest) i out used counts hist = out := by
  refine ⟨?_, packLoop_head m q nd n chunks 1 ch₀ h, ?_⟩
  · intro hnil
    have hh := packLoop_head m q nd n chunks 1 ch₀ h
    have h2 : ((packLoopKeys m q nd n chunks 1 [] 0 [] []).map Prod.snd) =
        [] := hnil
    rw [h2] at hh
    simp at hh
  · intro ch rest i out used counts hist hh1 hh2 hh3 hh4 hh5
    exact packLoop_cons_break hh1 hh2 hh3 ⟨hh4, hh5⟩

/-- Witness for the amended C6 at the concrete three-chunk input. -/
theorem pack_context_first_accept_witness :
    pack_context [c6a, c6b, c6c] 10 3 none 3 ≠ [] :=
  (pack_context_first_accept [c6a, c6b, c6c] 10 3 none 3 c6a (by decide)).1

/-! ### Lemmas about `validate_citations` -/

theorem insertStr_ne_nil (x : String) (l : List String) :
    insertStr x l ≠ [] := by
  cases l with
  | nil => simp [insertStr]
  | cons y ys =>
    simp only [insertStr]
    split <;> simp

theorem sortStrs_eq_nil {l : List String} : sortStrs l = [] ↔ l = [] := by
  cases l with
  | nil => simp [sortStrs]
  | cons x xs =>
    simp only [sortStrs]
    constructor
    · intro h
      exact absurd h (insertStr_ne_nil x (sortStrs xs))
    · intro h
      simp at h

/-- C9: `validate_citations` returns ok = false exactly when the answer
contains a citation tag absent from the declared citation ids, or strict
mode is on and some sentence carries no tag; and in the strict failure
case (with no missing tags) the returned reason quotes the first
tag-less sentence. -/
theorem validate_citations_correct (p : ParsedResponse) (strict : Bool) :
    ((validate_citations p strict).1 = false ↔
      ((∃ t ∈ scanTags (pyStrip (p.answer_markdown.getD "")), t ∉ citIds p)
        ∨ (strict = true ∧
            ∃ s ∈ sentencesOf (pyStrip (p.answer_markdown.getD "")),
              hasTag s = false)))
    ∧ ∀ s₀ : String,
        (¬ ∃ t ∈ scanTags (pyStrip (p.answer_markdown.getD "")),
          t ∉ citIds p) →
        strict = true →
        (sentencesOf (pyStrip (p.answer_markdown.getD ""))).find?
          (fun s => !(hasTag s)) = some s₀ →
        (validate_citations p strict).2 =
          "strict mode: sentence lacks citation tag: \x27" ++ previewOf s₀ ++
            "\x27" := by
  have hMiff : (sortStrs ((dedupKeepFirst (scanTags
      (pyStrip (p.answer_markdown.getD "")))).filter
      (fun t => decide (t ∉ citIds p))) = []) ↔
      ¬ ∃ t ∈ scanTags (pyStrip (p.answer_markdown.getD "")),
        t ∉ citIds p := by
    rw [sortStrs_eq_nil, List.filter_eq_nil_iff]
    simp only [decide_eq_true_eq]
    constructor
    · rintro hall ⟨t, ht, hnot⟩
      exact hall t (dedupKeepFirst_mem.mpr ht) hnot
    · intro hno a ha hnot
      exact hno ⟨a, dedupKeepFirst_mem.mp ha, hnot⟩
  by_cases hM : sortStrs ((dedupKeepFirst (scanTags
      (pyStrip (p.answer_markdown.getD "")))).filter
      (fun t => decide (t ∉ citIds p))) = []
  · have hnoex : ¬ ∃ t ∈ scanTags (pyStrip (p.answer_markdown.getD "")),
        t ∉ citIds p := hMiff.mp hM
    by_cases hsa : strict = true ∧ pyStrip (p.answer_markdown.getD "") ≠ ""
    · cases hfind : (sentencesOf (pyStrip (p.answer_markdown.getD ""))).find?
          (fun s => !(hasTag s)) with
      | some s₀ =>
        have hvc : validate_citations p strict =
            (false, "strict mode: sentence lacks citation tag: \x27" ++
              previewOf s₀ ++ "\x27") := by
          simp only [validate_citations]
          rw [if_neg (by simpa using hM), if_pos hsa, hfind]
        constructor
        · rw [hvc]
          constructor
          · intro _
            refine Or.inr ⟨hsa.1, s₀, List.mem_of_find?_eq_some hfind, ?_⟩
            have := List.find?_some hfind
            simpa using this
          · intro _
            rfl
        · intro s₁ _ _ hfind₁
          obtain rfl := Option.some.inj hfind₁
          rw [hvc]
      | none =>
        have hvc : validate_citations p strict = (true, "") := by
          simp only [validate_citations]
          rw [if_neg (by simpa using hM), if_pos hsa, hfind]
        constructor
        · rw [hvc]
          constructor
          · intro hfalse
            exact absurd hfalse (by simp)
          · rintro (hex | ⟨_, s, hs, hlack⟩)
            · exact absurd hex hnoex
            · have hnot := List.find?_eq_none.mp hfind s hs
              rw [hlack] at hnot
              simp at hnot
        · intro s₁ _ _ hfind₁
          simp at hfind₁
    · have hvc : validate_citations p strict = (true, "") := by
        simp only [validate_citations]
        rw [if_neg (by simpa using hM), if_neg hsa]
      constructor
      · rw [hvc]
        constructor
        · intro hfalse
          exact absurd hfalse (by simp)
        · rintro (hex | ⟨hstrict, s, hs, _⟩)
          · exact absurd hex hnoex
          · have hans : pyStrip (p.answer_markdown.getD "") = "" := by
              by_contra hne
              exact hsa ⟨hstrict, hne⟩
            rw [hans] at hs
            have hempty : sentencesOf "" = [] := rfl
            rw [hempty] at hs
            simp at hs
      · intro s₁ _ hstrict hfind₁
        have hans : pyStrip (p.answer_markdown.getD "") = "" := by
          by_contra hne
          exact hsa ⟨hstrict, hne⟩
        rw [hans] at hfind₁
        have hempty : sentencesOf "" = [] := rfl
        rw [hempty] at hfind₁
        simp at hfind₁
  · have hex : ∃ t ∈ scanTags (pyStrip (p.answer_markdown.getD "")),
        t ∉ citIds p := by
      by_contra hno
      exact hM (hMiff.mpr hno)
    have hvc1 : (validate_citations p strict).1 = false := by
      simp only [validate_citations]
      rw [if_pos hM]
    constructor
    · rw [hvc1]
      simp [hex]
    · intro s₁ hnomiss _ _
      exact absurd hex hnomiss

/-- Witness for C9 at the concrete strict-mode scenario: one tagged and one
untagged sentence, citations declaring only C1. -/
theorem validate_citations_correct_witness :
    (validate_citations
      ⟨some "Tagged sentence [C1]. Untagged sentence.",
        [⟨some "C1"⟩], none, false, none⟩ true).2 =
      "strict mode: sentence lacks citation tag: \x27" ++
        previewOf "Untagged sentence." ++ "\x27" :=
  (validate_citations_correct
    ⟨some "Tagged sentence [C1]. Untagged sentence.",
      [⟨some "C1"⟩], none, false, none⟩ true).2
    "Untagged sentence." (by decide) rfl (by decide)
